import Mathlib

/-!
Verification development for the HTTP request start-line parser of
`src/inc/request_line.hpp` (class `http::Request_line`).

The parser is embedded shallowly over `List Char` (the incoming byte
buffer; every byte of interest is ASCII).  The embedding follows the
source constructor `Request_line::Request_line(string_view request)`
line by line:

* minimum-length guard (line 174),
* line-terminator discovery via `find("\r\n")` then `find('\n')`
  (lines 184-191),
* anchored grammar match of the regex
  `\s*(GET|POST|PUT|DELETE|OPTIONS|HEAD|TRACE|CONNECT) (\S+) HTTP/(\d+)\.(\d+)`
  (lines 193-204), rendered here as the equivalent deterministic
  scanner `matchLine` (the regex is anchored on both sides by
  `regex_match`; backtracking adds nothing because the method
  alternation is prefix-free and every repeated class is followed by a
  character outside the class, so each repetition is forced maximal),
* field decoding (lines 206-212),
* the trim of the by-value `request` parameter (lines 214-219), whose
  computed offset is modelled by the second component of `parseFull`;
  the constructor itself exposes only the `Request_line` value, which
  is modelled by `Request_line.parse`.

The source throws a single exception type `Request_line_error` with
distinct messages at distinct throw sites; the inductive
`Request_line_error` below models the five documented failure kinds,
one per site (`UnknownMethod` and `InvalidVersionNumber` belong to the
sub-decoders `method::code` and `std::stoul`).
-/

/-- Failure kinds of the request-line parser, one per throw site of the
source: the length guard (line 175), terminator discovery (line 190),
the regex mismatch (line 203), `method::code` and `std::stoul`. -/
inductive Request_line_error where
  | InputTooShort
  | MissingLineTerminator
  | GrammarMismatch
  | UnknownMethod
  | InvalidVersionNumber
deriving DecidableEq

/-- The closed method enumeration of `methods.hpp`. -/
inductive Method where
  | GET
  | POST
  | PUT
  | DELETE
  | OPTIONS
  | HEAD
  | TRACE
  | CONNECT
deriving DecidableEq

namespace method

/-- Modelled from the spec: `method::code` of `methods.hpp` is not in
`src/`.  Per spec 4.1 it fails with `UnknownMethod` unless the token is
byte-for-byte one of the eight canonical uppercase tokens. -/
def code (token : List Char) : Except Request_line_error Method :=
  if token = "GET".toList then .ok .GET
  else if token = "POST".toList then .ok .POST
  else if token = "PUT".toList then .ok .PUT
  else if token = "DELETE".toList then .ok .DELETE
  else if token = "OPTIONS".toList then .ok .OPTIONS
  else if token = "HEAD".toList then .ok .HEAD
  else if token = "TRACE".toList then .ok .TRACE
  else if token = "CONNECT".toList then .ok .CONNECT
  else .error .UnknownMethod

/-- Modelled from the spec: `method::str` of `methods.hpp` is not in
`src/`.  Per spec 4.1 it is total and returns the canonical uppercase
token. -/
def str : Method → List Char
  | .GET => "GET".toList
  | .POST => "POST".toList
  | .PUT => "PUT".toList
  | .DELETE => "DELETE".toList
  | .OPTIONS => "OPTIONS".toList
  | .HEAD => "HEAD".toList
  | .TRACE => "TRACE".toList
  | .CONNECT => "CONNECT".toList

end method

/-- The HTTP protocol version pair of `version.hpp` (`Version{maj, min}`,
two `unsigned` fields).  The C++ fields are 32-bit unsigned; the model
uses `Nat`, with the `< 2 ^ 32` bound carried as a hypothesis where it
matters. -/
structure Version where
  major : Nat
  minor : Nat
deriving DecidableEq

/-- The `http::Request_line` aggregate: data members `method_`, `uri_`
(the URI holds the target token verbatim, so it is modelled as its
character list) and `version_` (lines 154-156). -/
structure Request_line where
  method_ : Method
  uri_ : List Char
  version_ : Version
deriving DecidableEq

/-- ECMAScript `\s` restricted to bytes under the default locale used by
`std::regex` on `char`: space, tab, newline, vertical tab, form feed,
carriage return. -/
def isWS (c : Char) : Bool :=
  c == ' ' || c == '\t' || c == '\n' || c == '\x0b' || c == '\x0c' || c == '\r'

/-- ECMAScript `\S`: complement of `isWS`. -/
def nonWS (c : Char) : Bool := !isWS c

/-- ECMAScript `\d`: the ten decimal digit bytes. -/
def isDigitB (c : Char) : Bool := '0' ≤ c && c ≤ '9'

/-- Numeric value of one decimal digit byte. -/
def digitVal (c : Char) : Nat := c.toNat - 48

/-- Value of a decimal digit run, most significant digit first (the
accumulation `std::stoul` performs on a digit-only run). -/
def digitsVal (ds : List Char) : Nat :=
  ds.foldl (fun a c => 10 * a + digitVal c) 0

/-- Modelled from the spec: `std::stoul` (C++ standard library) applied
to the digit-only capture of the regex, followed by
`static_cast<unsigned>`.  On the 32-bit target of this code base
`unsigned long` and `unsigned` are both 32 bits wide, so the cast is the
identity and `stoul` throws `out_of_range` (spec kind
`InvalidVersionNumber`) exactly when the value exceeds `2 ^ 32 - 1`. -/
def stoul (ds : List Char) : Except Request_line_error Nat :=
  if digitsVal ds ≤ 4294967295 then .ok (digitsVal ds) else .error .InvalidVersionNumber

/-- First position (if any) at which the test on the remaining suffix
fires; generic model of `string_view::find`. -/
def findFirst (p : List Char → Bool) : List Char → Option Nat
  | [] => none
  | c :: rest => if p (c :: rest) then some 0 else (findFirst p rest).map (· + 1)

/-- Does the list start with the two bytes `"\r\n"`? -/
def startsWithCrlf (l : List Char) : Bool :=
  match l with
  | c :: d :: _ => c == '\r' && d == '\n'
  | _ => false

/-- Does the list start with the byte `'\n'`? -/
def startsWithLf (l : List Char) : Bool :=
  match l with
  | c :: _ => c == '\n'
  | _ => false

/-- Model of `request.find("\r\n")` at line 184. -/
def findCrlf (l : List Char) : Option Nat := findFirst startsWithCrlf l

/-- Model of `request.find('\n')` at line 187. -/
def findLf (l : List Char) : Option Nat := findFirst startsWithLf l

/-- Lines 184-191: extract the request line (the bytes strictly before
the terminator) and the resume offset just past the terminator
(`index + 2` for `"\r\n"`, `index + 1` for bare `'\n'`); fail with
`MissingLineTerminator` when neither terminator occurs. -/
def splitLine (request : List Char) : Except Request_line_error (List Char × Nat) :=
  match findCrlf request with
  | some index => .ok (request.take index, index + 2)
  | none =>
    match findLf request with
    | some index => .ok (request.take index, index + 1)
    | none => .error .MissingLineTerminator

/-- The ordered alternation `GET|POST|PUT|DELETE|OPTIONS|HEAD|TRACE|CONNECT`
of the regex at line 195. -/
def methodTokens : List (List Char) :=
  ["GET".toList, "POST".toList, "PUT".toList, "DELETE".toList,
   "OPTIONS".toList, "HEAD".toList, "TRACE".toList, "CONNECT".toList]

/-- Try the method alternation in regex order: strip the first token of
the list that is a prefix of the input. -/
def stripMethodTok : List (List Char) → List Char → Option (List Char × List Char)
  | [], _ => none
  | tok :: toks, s =>
    if tok.isPrefixOf s then some (tok, s.drop tok.length) else stripMethodTok toks s

/-- The literal `"HTTP/"` of the regex at line 197. -/
def httpLit : List Char := "HTTP/".toList

/-- Consume one mandatory literal byte (a single-character literal of
the regex). -/
def expectChar (ch : Char) (l : List Char) : Option (List Char) :=
  match l with
  | c :: rest => if c = ch then some rest else none
  | [] => none

/-- The anchored regex match of lines 193-204, as a deterministic
scanner returning the four captures `m[1]`-`m[4]` (method token, target,
major digit run, minor digit run).  Each step is forced: `\s*` must end
at the first non-whitespace byte because every method token starts with
a letter; the prefix-free alternation admits at most one token; `\S+`
and `\d+` are each followed in the regex by a byte outside their class,
so only the maximal run can match; `regex_match` anchors the end. -/
def matchLine (line : List Char) :
    Option (List Char × List Char × List Char × List Char) :=
  (stripMethodTok methodTokens (line.dropWhile isWS)).bind fun pr =>
    (expectChar ' ' pr.2).bind fun r2 =>
      if (r2.takeWhile nonWS).isEmpty then none
      else
        (expectChar ' ' (r2.dropWhile nonWS)).bind fun r4 =>
          if httpLit.isPrefixOf r4 then
            if ((r4.drop 5).takeWhile isDigitB).isEmpty then none
            else
              (expectChar '.' ((r4.drop 5).dropWhile isDigitB)).bind fun r7 =>
                if (r7.takeWhile isDigitB).isEmpty then none
                else if (r7.dropWhile isDigitB).isEmpty then
                  some (pr.1, r2.takeWhile nonWS,
                        (r4.drop 5).takeWhile isDigitB, r7.takeWhile isDigitB)
                else none
          else none

/-- Lines 193-212: grammar match over the extracted line, then field
decoding in source order (`method::code`, URI verbatim, `stoul` major,
`stoul` minor). -/
def parseLine (line : List Char) : Except Request_line_error Request_line :=
  match matchLine line with
  | none => .error .GrammarMismatch
  | some (tok, target, majDs, minDs) => do
    let m ← method.code tok
    let maj ← stoul majDs
    let mn ← stoul minDs
    .ok ⟨m, target, ⟨maj, mn⟩⟩

/-- The whole constructor body (lines 173-220): length guard, terminator
split, grammar match and field decoding.  The second component of the
result is the resume offset the trim at lines 214-219 computes
(`index + 2` or `index + 1`). -/
def parseFull (request : List Char) :
    Except Request_line_error (Request_line × Nat) :=
  if request.length < 15 then .error .InputTooShort
  else
    match splitLine request with
    | .error e => .error e
    | .ok (line, off) => (parseLine line).map (fun rl => (rl, off))

/-- What the caller of the constructor actually receives: the
`Request_line` alone.  The trimmed remainder of lines 214-219 is written
to the by-value `string_view` parameter and discarded when the
constructor returns, so no resume offset reaches the caller. -/
def Request_line.parse (request : List Char) :
    Except Request_line_error Request_line :=
  (parseFull request).map Prod.fst

/-- Decimal rendering of a natural number, fuel-indexed so that it is
structurally recursive (`fuel > n` suffices). -/
def toDecimalAux : Nat → Nat → List Char
  | 0, _ => []
  | fuel + 1, n =>
    if n < 10 then [Nat.digitChar n]
    else toDecimalAux fuel (n / 10) ++ [Nat.digitChar (n % 10)]

/-- Decimal rendering of a natural number (what `operator<<` on an
`unsigned` produces). -/
def toDecimal (n : Nat) : List Char := toDecimalAux (n + 1) n

/-- Modelled from the spec: the stream output of `Version` from
`version.hpp` is not in `src/`.  Per spec 4.2/4.4 a version renders as
`"HTTP/<major>.<minor>"` with the plain decimal magnitudes. -/
def Version.render (v : Version) : List Char :=
  httpLit ++ toDecimal v.major ++ '.' :: toDecimal v.minor

/-- Model of `Request_line::to_string` (lines 257-265): method token, space, URI
verbatim, space, version rendering, `"\r\n"`. -/
def Request_line.to_string (rl : Request_line) : List Char :=
  method.str rl.method_ ++ ' ' :: rl.uri_ ++ ' ' :: rl.version_.render ++ ['\r', '\n']

/-- Model of `Request_line::set_method` (lines 228-230): plain assignment to
`method_`. -/
def Request_line.set_method (rl : Request_line) (m : Method) : Request_line :=
  { rl with method_ := m }

/-- Model of `Request_line::set_uri` (lines 243-245): the placement-new
reconstruction of `uri_`, i.e. replacement of that field's value. -/
def Request_line.set_uri (rl : Request_line) (u : List Char) : Request_line :=
  { rl with uri_ := u }

/-- Model of `Request_line::set_version` (lines 253-255): plain assignment to
`version_`. -/
def Request_line.set_version (rl : Request_line) (v : Version) : Request_line :=
  { rl with version_ := v }

/-- The accessor `method()` (lines 223-225), modelled as returning the
field value together with the post-call object state. -/
def Request_line.method (rl : Request_line) : Method × Request_line :=
  (rl.method_, rl)

/-- The const accessor `uri()` (lines 238-240), modelled as returning
the field value together with the post-call object state. -/
def Request_line.uri (rl : Request_line) : List Char × Request_line :=
  (rl.uri_, rl)

/-- The accessor `version()` (lines 248-250), modelled as returning the
field value together with the post-call object state. -/
def Request_line.version (rl : Request_line) : Version × Request_line :=
  (rl.version_, rl)

/-- All bytes of a run satisfy `isWS`. -/
def allWS (l : List Char) : Prop := ∀ c ∈ l, isWS c = true

/-- No byte of a run satisfies `isWS`. -/
def noWS (l : List Char) : Prop := ∀ c ∈ l, isWS c = false

/-- All bytes of a run are decimal digits. -/
def allDigits (l : List Char) : Prop := ∀ c ∈ l, isDigitB c = true

instance (l : List Char) : Decidable (allWS l) :=
  inferInstanceAs (Decidable (∀ c ∈ l, isWS c = true))

instance (l : List Char) : Decidable (noWS l) :=
  inferInstanceAs (Decidable (∀ c ∈ l, isWS c = false))

instance (l : List Char) : Decidable (allDigits l) :=
  inferInstanceAs (Decidable (∀ c ∈ l, isDigitB c = true))

/-- The positional body of a request line: method token, one space,
target, one space, the `"HTTP/"` literal, major digit run, dot, minor
digit run. -/
def lineAssemble (mtok t a b : List Char) : List Char :=
  mtok ++ (' ' :: (t ++ (' ' :: (httpLit ++ (a ++ ('.' :: b))))))

/-- The declarative request-line grammar, written from the spec's words
(spec 4.3 step 3 and the ABNF of spec 6): optional leading whitespace
run, a method token, one space, a non-empty non-whitespace target, one
space, the literal `"HTTP/"`, a non-empty major digit run, a dot, a
non-empty minor digit run, and nothing after it.  `matchLine` is proved
equivalent to it below. -/
def Grammatical (line : List Char) : Prop :=
  ∃ ws mtok t a b,
    line = ws ++ lineAssemble mtok t a b ∧
    allWS ws ∧ mtok ∈ methodTokens ∧
    t ≠ [] ∧ noWS t ∧
    a ≠ [] ∧ allDigits a ∧
    b ≠ [] ∧ allDigits b

/-- First crlf-shaped position: the two bytes at offset `i` are
`"\r\n"`. -/
def crlfAt (l : List Char) (i : Nat) : Prop := (l.drop i).take 2 = ['\r', '\n']

/-- The byte at offset `i` is `'\n'`. -/
def lfAt (l : List Char) (i : Nat) : Prop := (l.drop i).head? = some '\n'

instance (l : List Char) (i : Nat) : Decidable (crlfAt l i) :=
  inferInstanceAs (Decidable ((l.drop i).take 2 = ['\r', '\n']))

instance (l : List Char) (i : Nat) : Decidable (lfAt l i) :=
  inferInstanceAs (Decidable ((l.drop i).head? = some '\n'))

/-! ### Generic list helpers -/

theorem isPrefixOf_ex : ∀ (xs ys : List Char), xs.isPrefixOf ys = true ↔ ∃ u, ys = xs ++ u
  | [], ys => by simp [List.isPrefixOf]
  | x :: xt, [] => by simp [List.isPrefixOf]
  | x :: xt, y :: yt => by
    simp only [List.isPrefixOf, Bool.and_eq_true, beq_iff_eq, isPrefixOf_ex xt yt,
      List.cons_append, List.cons.injEq]
    constructor
    · rintro ⟨rfl, u, rfl⟩
      exact ⟨u, rfl, rfl⟩
    · rintro ⟨u, rfl, rfl⟩
      exact ⟨rfl, u, rfl⟩

theorem takeWhile_append_of (p : Char → Bool) (xs : List Char) (y : Char) (ys : List Char)
    (hxs : ∀ c ∈ xs, p c = true) (hy : p y = false) :
    (xs ++ y :: ys).takeWhile p = xs := by
  induction xs with
  | nil => simp [List.takeWhile_cons, hy]
  | cons x xt ih =>
    have hx : p x = true := hxs x (by simp)
    simp only [List.cons_append, List.takeWhile_cons, hx, if_true]
    rw [ih (fun c hc => hxs c (by simp [hc]))]

theorem dropWhile_append_of (p : Char → Bool) (xs : List Char) (y : Char) (ys : List Char)
    (hxs : ∀ c ∈ xs, p c = true) (hy : p y = false) :
    (xs ++ y :: ys).dropWhile p = y :: ys := by
  induction xs with
  | nil => simp [List.dropWhile_cons, hy]
  | cons x xt ih =>
    have hx : p x = true := hxs x (by simp)
    simp only [List.cons_append, List.dropWhile_cons, hx, if_true]
    exact ih (fun c hc => hxs c (by simp [hc]))

theorem takeWhile_all (p : Char → Bool) (xs : List Char)
    (hxs : ∀ c ∈ xs, p c = true) : xs.takeWhile p = xs := by
  induction xs with
  | nil => rfl
  | cons x xt ih =>
    have hx : p x = true := hxs x (by simp)
    simp only [List.takeWhile_cons, hx, if_true]
    rw [ih (fun c hc => hxs c (by simp [hc]))]

theorem dropWhile_all (p : Char → Bool) (xs : List Char)
    (hxs : ∀ c ∈ xs, p c = true) : xs.dropWhile p = [] := by
  induction xs with
  | nil => rfl
  | cons x xt ih =>
    have hx : p x = true := hxs x (by simp)
    simp only [List.dropWhile_cons, hx, if_true]
    exact ih (fun c hc => hxs c (by simp [hc]))

theorem token_eq_of (xs : List Char) : ∀ (ys u v : List Char), ' ' ∉ xs → ' ' ∉ ys →
    xs ++ ' ' :: u = ys ++ ' ' :: v → xs = ys ∧ u = v := by
  induction xs with
  | nil =>
    intro ys u v _ hy h
    cases ys with
    | nil => simpa using h
    | cons y yt =>
      simp only [List.nil_append, List.cons_append, List.cons.injEq] at h
      exact absurd (h.1 ▸ List.mem_cons_self y yt) hy
  | cons x xt ih =>
    intro ys u v hx hy h
    cases ys with
    | nil =>
      simp only [List.cons_append, List.nil_append, List.cons.injEq] at h
      exact absurd (h.1 ▸ List.mem_cons_self x xt) hx
    | cons y yt =>
      simp only [List.cons_append, List.cons.injEq] at h
      obtain ⟨rfl, h2⟩ := h
      obtain ⟨h3, h4⟩ := ih yt u v (fun hc => hx (List.mem_cons_of_mem x hc))
        (fun hc => hy (List.mem_cons_of_mem x hc)) h2
      exact ⟨by rw [h3], h4⟩

/-! ### `findFirst` and terminator discovery -/

theorem findFirst_eq_some (p : List Char → Bool) (l : List Char) :
    ∀ i : Nat, p [] = false → p (l.drop i) = true →
      (∀ j, j < i → p (l.drop j) = false) → findFirst p l = some i := by
  induction l with
  | nil =>
    intro i hnil hi _
    rw [List.drop_nil] at hi
    rw [hnil] at hi
    exact absurd hi (by simp)
  | cons c rest ih =>
    intro i hnil hi hmin
    cases i with
    | zero =>
      rw [List.drop_zero] at hi
      simp [findFirst, hi]
    | succ i' =>
      have h0 : p (c :: rest) = false := by
        have := hmin 0 (Nat.succ_pos i')
        rwa [List.drop_zero] at this
      rw [findFirst, if_neg (by simp [h0])]
      have hi' : p (rest.drop i') = true := by
        rwa [List.drop_succ_cons] at hi
      have hmin' : ∀ j, j < i' → p (rest.drop j) = false := by
        intro j hj
        have := hmin (j + 1) (Nat.succ_lt_succ hj)
        rwa [List.drop_succ_cons] at this
      rw [ih i' hnil hi' hmin']
      rfl

theorem findFirst_eq_none (p : List Char → Bool) (l : List Char)
    (h : ∀ i, p (l.drop i) = false) : findFirst p l = none := by
  induction l with
  | nil => rfl
  | cons c rest ih =>
    have h0 : p (c :: rest) = false := by
      have := h 0
      rwa [List.drop_zero] at this
    rw [findFirst, if_neg (by simp [h0])]
    rw [ih (fun i => by have := h (i + 1); rwa [List.drop_succ_cons] at this)]
    rfl

theorem startsWithCrlf_iff : ∀ l : List Char, startsWithCrlf l = true ↔ l.take 2 = ['\r', '\n']
  | [] => by simp [startsWithCrlf]
  | [c] => by simp [startsWithCrlf]
  | c :: d :: rest => by
    simp [startsWithCrlf, List.take_succ_cons, and_comm]

theorem startsWithLf_iff : ∀ l : List Char, startsWithLf l = true ↔ l.head? = some '\n'
  | [] => by simp [startsWithLf]
  | c :: rest => by simp [startsWithLf]

theorem startsWithCrlf_eq_false_snd (c : Char) (l : List Char)
    (h : ∀ d, l.head? = some d → d ≠ '\n') : startsWithCrlf (c :: l) = false := by
  cases l with
  | nil => rfl
  | cons d rest =>
    have hd : d ≠ '\n' := h d rfl
    simp [startsWithCrlf, hd]

theorem startsWithCrlf_eq_false_fst (c : Char) (l : List Char) (h : c ≠ '\r') :
    startsWithCrlf (c :: l) = false := by
  cases l with
  | nil => rfl
  | cons d rest => simp [startsWithCrlf, h]

theorem findCrlf_eq_some (l : List Char) (i : Nat) (hi : crlfAt l i)
    (hmin : ∀ j, j < i → ¬ crlfAt l j) : findCrlf l = some i := by
  apply findFirst_eq_some
  · rfl
  · exact (startsWithCrlf_iff (l.drop i)).mpr hi
  · intro j hj
    apply Bool.eq_false_iff.mpr
    intro hb
    exact hmin j hj ((startsWithCrlf_iff _).mp hb)

theorem findLf_eq_some (l : List Char) (i : Nat) (hi : lfAt l i)
    (hmin : ∀ j, j < i → ¬ lfAt l j) : findLf l = some i := by
  apply findFirst_eq_some
  · rfl
  · exact (startsWithLf_iff (l.drop i)).mpr hi
  · intro j hj
    apply Bool.eq_false_iff.mpr
    intro hb
    exact hmin j hj ((startsWithLf_iff _).mp hb)

theorem findCrlf_eq_none_of_no_lf (l : List Char) (h : '\n' ∉ l) : findCrlf l = none := by
  apply findFirst_eq_none
  intro i
  cases hd : l.drop i with
  | nil => rfl
  | cons c rest =>
    apply startsWithCrlf_eq_false_snd
    intro d hdd
    cases rest with
    | nil => simp at hdd
    | cons e rest' =>
      simp only [List.head?_cons, Option.some.injEq] at hdd
      subst hdd
      intro hcon
      subst hcon
      exact h (List.mem_of_mem_drop (hd ▸ List.mem_cons_of_mem c (List.mem_cons_self _ _)))

theorem findCrlf_eq_none_of_no_cr (l : List Char) (h : '\r' ∉ l) : findCrlf l = none := by
  apply findFirst_eq_none
  intro i
  cases hd : l.drop i with
  | nil => rfl
  | cons c rest =>
    apply startsWithCrlf_eq_false_fst
    intro hcon
    subst hcon
    exact h (List.mem_of_mem_drop (hd ▸ List.mem_cons_self _ _))

theorem findLf_eq_none_of_no_lf (l : List Char) (h : '\n' ∉ l) : findLf l = none := by
  apply findFirst_eq_none
  intro i
  cases hd : l.drop i with
  | nil => rfl
  | cons c rest =>
    have hc : c ≠ '\n' := by
      intro hcon
      subst hcon
      exact h (List.mem_of_mem_drop (hd ▸ List.mem_cons_self _ _))
    simp [startsWithLf, hc]

/-! ### `splitLine` on inputs of known shape -/

theorem findCrlf_append (xs ys : List Char) (h : '\n' ∉ xs) :
    findCrlf (xs ++ '\r' :: '\n' :: ys) = some xs.length := by
  apply findFirst_eq_some
  · rfl
  · rw [List.drop_left]
    rfl
  · intro j hj
    have hj' : j < (xs ++ '\r' :: '\n' :: ys).length := by
      simp only [List.length_append]
      omega
    rw [List.drop_eq_getElem_cons hj']
    apply startsWithCrlf_eq_false_snd
    intro d hdd hcon
    subst hcon
    rw [List.drop_append_eq_append_drop] at hdd
    have hxs : xs.drop (j + 1) = [] ∨ ∃ z zs, xs.drop (j + 1) = z :: zs := by
      cases xs.drop (j + 1) with
      | nil => exact Or.inl rfl
      | cons z zs => exact Or.inr ⟨z, zs, rfl⟩
    rcases hxs with hnil | ⟨z, zs, hz⟩
    · rw [hnil, List.nil_append] at hdd
      have : j + 1 - xs.length = 0 := by
        have := List.length_eq_zero.mpr hnil
        simp only [List.length_drop] at this
        omega
      rw [this, List.drop_zero] at hdd
      simp at hdd
    · rw [hz] at hdd
      simp only [List.cons_append, List.head?_cons, Option.some.injEq] at hdd
      have hzmem : z ∈ xs.drop (j + 1) := by
        rw [hz]
        exact List.mem_cons_self z zs
      have hzx : z ∈ xs := List.mem_of_mem_drop hzmem
      rw [hdd] at hzx
      exact h hzx

theorem findLf_append (xs ys : List Char) (h : '\n' ∉ xs) :
    findLf (xs ++ '\n' :: ys) = some xs.length := by
  apply findFirst_eq_some
  · rfl
  · rw [List.drop_left]
    rfl
  · intro j hj
    have hj' : j < (xs ++ '\n' :: ys).length := by
      simp only [List.length_append]
      omega
    rw [List.drop_eq_getElem_cons hj']
    have hjx : j < xs.length := hj
    have hmem : (xs ++ '\n' :: ys)[j] ∈ xs := by
      rw [List.getElem_append_left hjx]
      exact List.getElem_mem hjx
    have : (xs ++ '\n' :: ys)[j] ≠ '\n' := fun hcon => h (hcon ▸ hmem)
    simp [startsWithLf, this]

theorem splitLine_crlf (xs ys : List Char) (h : '\n' ∉ xs) :
    splitLine (xs ++ '\r' :: '\n' :: ys) = .ok (xs, xs.length + 2) := by
  rw [splitLine, findCrlf_append xs ys h]
  simp [List.take_left]

theorem splitLine_lf (xs : List Char) (hcr : '\r' ∉ xs) (hlf : '\n' ∉ xs) :
    splitLine (xs ++ ['\n']) = .ok (xs, xs.length + 1) := by
  have hno : '\r' ∉ xs ++ ['\n'] := by
    intro hmem
    rcases List.mem_append.mp hmem with hmem | hmem
    · exact hcr hmem
    · simp at hmem
  rw [splitLine, findCrlf_eq_none_of_no_cr _ hno, findLf_append xs [] hlf]
  simp [List.take_left]

/-! ### Character classes and token facts -/

theorem isWS_eq_false_of_digit (c : Char) (h : isDigitB c = true) : isWS c = false := by
  simp only [isDigitB, Bool.and_eq_true, decide_eq_true_eq] at h
  obtain ⟨h1, _⟩ := h
  simp only [isWS, Bool.or_eq_false_iff, beq_eq_false_iff_ne, ne_eq]
  refine ⟨⟨⟨⟨⟨?_, ?_⟩, ?_⟩, ?_⟩, ?_⟩, ?_⟩ <;> (rintro rfl; revert h1; decide)

theorem ne_of_nonws (c x : Char) (hx : isWS x = true) (hc : isWS c = false) : c ≠ x := by
  intro h
  rw [h, hx] at hc
  exact absurd hc (by simp)

theorem methodTokens_facts :
    ∀ tok ∈ methodTokens, tok ≠ [] ∧ (∀ c ∈ tok, isWS c = false) := by decide

theorem method_str_mem (m : Method) : method.str m ∈ methodTokens := by
  cases m <;> decide

theorem method_code_str (m : Method) : method.code (method.str m) = .ok m := by
  cases m <;> rfl

theorem method_code_of_mem (tok : List Char) (h : tok ∈ methodTokens) :
    ∃ m, method.code tok = .ok m := by
  fin_cases h
  · exact ⟨.GET, rfl⟩
  · exact ⟨.POST, rfl⟩
  · exact ⟨.PUT, rfl⟩
  · exact ⟨.DELETE, rfl⟩
  · exact ⟨.OPTIONS, rfl⟩
  · exact ⟨.HEAD, rfl⟩
  · exact ⟨.TRACE, rfl⟩
  · exact ⟨.CONNECT, rfl⟩

theorem methodTokens_not_space : ∀ tok ∈ methodTokens, ' ' ∉ tok := by decide

theorem noWS_not_space (t : List Char) (h : noWS t) : ' ' ∉ t := by
  intro hmem
  have := h ' ' hmem
  rw [show isWS ' ' = true from rfl] at this
  exact absurd this (by simp)

/-! ### The scanner versus the declarative grammar -/

theorem expectChar_eq_some (ch : Char) (l r : List Char) :
    expectChar ch l = some r ↔ l = ch :: r := by
  cases l with
  | nil => simp [expectChar]
  | cons c rest =>
    by_cases hc : c = ch
    · subst hc
      simp [expectChar]
    · simp [expectChar, hc]

theorem expectChar_cons_self (ch : Char) (l : List Char) :
    expectChar ch (ch :: l) = some l := by
  simp [expectChar]

theorem stripMethodTok_sound : ∀ (toks : List (List Char)) (s tok r : List Char),
    stripMethodTok toks s = some (tok, r) → tok ∈ toks ∧ s = tok ++ r := by
  intro toks
  induction toks with
  | nil =>
    intro s tok r h
    exact absurd h (by simp [stripMethodTok])
  | cons t0 ts ih =>
    intro s tok r h
    rw [stripMethodTok] at h
    by_cases hp : t0.isPrefixOf s
    · rw [if_pos hp] at h
      simp only [Option.some.injEq, Prod.mk.injEq] at h
      obtain ⟨h1, h2⟩ := h
      subst h1
      subst h2
      obtain ⟨u, hu⟩ := (isPrefixOf_ex t0 s).mp hp
      subst hu
      refine ⟨List.mem_cons_self _ _, ?_⟩
      rw [List.drop_left]
    · rw [if_neg hp] at h
      obtain ⟨hm, he⟩ := ih s tok r h
      exact ⟨List.mem_cons_of_mem _ hm, he⟩

theorem stripMethodTok_self (mtok rest : List Char) (hm : mtok ∈ methodTokens) :
    stripMethodTok methodTokens (mtok ++ ' ' :: rest) = some (mtok, ' ' :: rest) := by
  fin_cases hm <;> rfl

theorem matchLine_sound (line tok t a b : List Char)
    (h : matchLine line = some (tok, t, a, b)) :
    line = line.takeWhile isWS ++ lineAssemble tok t a b ∧
    tok ∈ methodTokens ∧ t ≠ [] ∧ noWS t ∧ a ≠ [] ∧ allDigits a ∧ b ≠ [] ∧ allDigits b := by
  rw [matchLine, Option.bind_eq_some] at h
  obtain ⟨pr, hstrip, h⟩ := h
  obtain ⟨tok0, r1⟩ := pr
  rw [Option.bind_eq_some] at h
  obtain ⟨r2, hexp1, h⟩ := h
  have hexp1' : r1 = ' ' :: r2 := (expectChar_eq_some ' ' r1 r2).mp hexp1
  clear hexp1
  split at h
  · exact Option.noConfusion h
  rename_i httne
  rw [Option.bind_eq_some] at h
  obtain ⟨r4, hexp2, h⟩ := h
  rw [expectChar_eq_some] at hexp2
  split at h
  swap
  · exact Option.noConfusion h
  rename_i hpre
  split at h
  · exact Option.noConfusion h
  rename_i hmajne
  rw [Option.bind_eq_some] at h
  obtain ⟨r7, hexp3, h⟩ := h
  rw [expectChar_eq_some] at hexp3
  split at h
  · exact Option.noConfusion h
  rename_i hminne
  split at h
  swap
  · exact Option.noConfusion h
  rename_i hr8
  simp only [Option.some.injEq, Prod.mk.injEq] at h
  obtain ⟨htok, ht, ha, hb⟩ := h
  obtain ⟨hmem, hsplit⟩ := stripMethodTok_sound methodTokens (line.dropWhile isWS) tok0 r1 hstrip
  have hr4eq : r4 = httpLit ++ r4.drop 5 := by
    obtain ⟨u, hu⟩ := (isPrefixOf_ex httpLit r4).mp hpre
    have hdrop : r4.drop 5 = u := by
      rw [hu, show (5 : Nat) = httpLit.length from rfl, List.drop_left]
    rw [hdrop, ← hu]
  have hr7eq : r7.takeWhile isDigitB = r7 := by
    have := List.takeWhile_append_dropWhile isDigitB r7
    rw [List.isEmpty_iff] at hr8
    rw [hr8, List.append_nil] at this
    exact this
  constructor
  · conv_lhs => rw [← List.takeWhile_append_dropWhile isWS line]
    rw [hsplit, htok, ← ht, ← ha, ← hb, hexp1']
    conv_lhs =>
      rw [show r2 = r2.takeWhile nonWS ++ r2.dropWhile nonWS from
        (List.takeWhile_append_dropWhile nonWS r2).symm]
    rw [hexp2]
    conv_lhs => rw [hr4eq]
    conv_lhs =>
      rw [show r4.drop 5 = (r4.drop 5).takeWhile isDigitB ++ (r4.drop 5).dropWhile isDigitB
        from (List.takeWhile_append_dropWhile isDigitB (r4.drop 5)).symm]
    rw [hexp3, hr7eq]
    simp [lineAssemble, List.append_assoc]
  refine ⟨htok ▸ hmem, ?_, ?_, ?_, ?_, ?_, ?_⟩
  · rw [← ht]
    intro hcon
    rw [← List.isEmpty_iff] at hcon
    exact httne (by rw [hcon])
  · rw [← ht]
    intro c hc
    simpa [nonWS] using List.mem_takeWhile_imp hc
  · rw [← ha]
    intro hcon
    rw [← List.isEmpty_iff] at hcon
    exact hmajne (by rw [hcon])
  · rw [← ha]
    intro c hc
    exact List.mem_takeWhile_imp hc
  · rw [← hb, hr7eq]
    intro hcon
    rw [← List.isEmpty_iff] at hcon
    exact hminne (by rw [hr7eq, hcon])
  · rw [← hb]
    intro c hc
    exact List.mem_takeWhile_imp hc

theorem matchLine_complete (ws mtok t a b : List Char)
    (hws : allWS ws) (hm : mtok ∈ methodTokens)
    (ht : t ≠ []) (htw : noWS t)
    (ha : a ≠ []) (had : allDigits a)
    (hb : b ≠ []) (hbd : allDigits b) :
    matchLine (ws ++ lineAssemble mtok t a b) = some (mtok, t, a, b) := by
  obtain ⟨hmne, hmnws⟩ := methodTokens_facts mtok hm
  have hdw : (ws ++ lineAssemble mtok t a b).dropWhile isWS = lineAssemble mtok t a b := by
    cases mtok with
    | nil => exact absurd rfl hmne
    | cons mh mt =>
      have hmh : isWS mh = false := hmnws mh (List.mem_cons_self _ _)
      have := dropWhile_append_of isWS ws mh
        (mt ++ (' ' :: (t ++ (' ' :: (httpLit ++ (a ++ ('.' :: b))))))) hws hmh
      simpa [lineAssemble, List.cons_append] using this
  have hstrip : stripMethodTok methodTokens (lineAssemble mtok t a b) =
      some (mtok, ' ' :: (t ++ (' ' :: (httpLit ++ (a ++ ('.' :: b)))))) := by
    rw [lineAssemble]
    exact stripMethodTok_self mtok _ hm
  have htake2 : (t ++ (' ' :: (httpLit ++ (a ++ ('.' :: b))))).takeWhile nonWS = t :=
    takeWhile_append_of nonWS t ' ' _ (fun c hc => by simp [nonWS, htw c hc]) (by decide)
  have hdrop2 : (t ++ (' ' :: (httpLit ++ (a ++ ('.' :: b))))).dropWhile nonWS =
      ' ' :: (httpLit ++ (a ++ ('.' :: b))) :=
    dropWhile_append_of nonWS t ' ' _ (fun c hc => by simp [nonWS, htw c hc]) (by decide)
  have hpre : httpLit.isPrefixOf (httpLit ++ (a ++ ('.' :: b))) = true :=
    (isPrefixOf_ex httpLit _).mpr ⟨_, rfl⟩
  have hdrop5 : (httpLit ++ (a ++ ('.' :: b))).drop 5 = a ++ ('.' :: b) := by
    rw [show (5 : Nat) = httpLit.length from rfl, List.drop_left]
  have htakea : (a ++ ('.' :: b)).takeWhile isDigitB = a :=
    takeWhile_append_of isDigitB a '.' b had (by decide)
  have hdropa : (a ++ ('.' :: b)).dropWhile isDigitB = '.' :: b :=
    dropWhile_append_of isDigitB a '.' b had (by decide)
  have htakeb : b.takeWhile isDigitB = b := takeWhile_all isDigitB b hbd
  have hdropb : b.dropWhile isDigitB = [] := dropWhile_all isDigitB b hbd
  rw [matchLine, hdw, hstrip, Option.some_bind]
  rw [show ((mtok, ' ' :: (t ++ (' ' :: (httpLit ++ (a ++ ('.' :: b)))))).2 : List Char) =
    ' ' :: (t ++ (' ' :: (httpLit ++ (a ++ ('.' :: b))))) from rfl]
  rw [expectChar_cons_self, Option.some_bind]
  rw [htake2, hdrop2]
  rw [if_neg (by simp [List.isEmpty_iff, ht])]
  rw [expectChar_cons_self, Option.some_bind]
  rw [if_pos hpre, hdrop5, htakea, hdropa]
  rw [if_neg (by simp [List.isEmpty_iff, ha])]
  rw [expectChar_cons_self, Option.some_bind]
  rw [htakeb, hdropb]
  rw [if_neg (by simp [List.isEmpty_iff, hb]), if_pos (by simp)]

theorem grammatical_iff (line : List Char) :
    Grammatical line ↔ ∃ out, matchLine line = some out := by
  constructor
  · rintro ⟨ws, mtok, t, a, b, rfl, hws, hm, ht, htw, ha, had, hb, hbd⟩
    exact ⟨(mtok, t, a, b), matchLine_complete ws mtok t a b hws hm ht htw ha had hb hbd⟩
  · rintro ⟨⟨tok, t, a, b⟩, h⟩
    obtain ⟨hline, hmem, ht, htw, ha, had, hb, hbd⟩ := matchLine_sound line tok t a b h
    refine ⟨line.takeWhile isWS, tok, t, a, b, hline, ?_, hmem, ht, htw, ha, had, hb, hbd⟩
    intro c hc
    exact List.mem_takeWhile_imp hc

/-! ### `parseLine` and `parseFull` structure -/

theorem except_ok_bind {α β : Type} (a : α) (f : α → Except Request_line_error β) :
    (Except.ok a : Except Request_line_error α).bind f = f a := rfl

theorem except_error_bind {α β : Type} (e : Request_line_error)
    (f : α → Except Request_line_error β) :
    (Except.error e : Except Request_line_error α).bind f = .error e := rfl

theorem stoul_ok (ds : List Char) (h : digitsVal ds ≤ 4294967295) :
    stoul ds = .ok (digitsVal ds) := by
  rw [stoul, if_pos h]

theorem stoul_err (ds : List Char) (h : ¬ digitsVal ds ≤ 4294967295) :
    stoul ds = .error .InvalidVersionNumber := by
  rw [stoul, if_neg h]

theorem parseLine_some_eq (line tok t a b : List Char)
    (hm : matchLine line = some (tok, t, a, b)) :
    parseLine line = (method.code tok).bind (fun m =>
      (stoul a).bind (fun maj => (stoul b).bind (fun mn => .ok ⟨m, t, ⟨maj, mn⟩⟩))) := by
  rw [parseLine, hm]
  rfl

theorem parseLine_none_eq (line : List Char) (hm : matchLine line = none) :
    parseLine line = .error .GrammarMismatch := by
  rw [parseLine, hm]

theorem parseLine_eq_gm_iff (line : List Char) :
    parseLine line = .error .GrammarMismatch ↔ matchLine line = none := by
  constructor
  · intro h
    cases hm : matchLine line with
    | none => rfl
    | some out =>
      obtain ⟨tok, t, a, b⟩ := out
      obtain ⟨_, hmem, _⟩ := matchLine_sound line tok t a b hm
      obtain ⟨m, hcode⟩ := method_code_of_mem tok hmem
      rw [parseLine_some_eq line tok t a b hm, hcode] at h
      simp only [except_ok_bind] at h
      by_cases hva : digitsVal a ≤ 4294967295
      · rw [stoul_ok a hva] at h
        simp only [except_ok_bind] at h
        by_cases hvb : digitsVal b ≤ 4294967295
        · rw [stoul_ok b hvb] at h
          simp only [except_ok_bind] at h
          exact Except.noConfusion h
        · rw [stoul_err b hvb] at h
          simp only [except_error_bind] at h
          injection h with h2
          exact Request_line_error.noConfusion h2
      · rw [stoul_err a hva] at h
        simp only [except_error_bind] at h
        injection h with h2
        exact Request_line_error.noConfusion h2
  · intro h
    exact parseLine_none_eq line h

theorem parseLine_ok_or_overflow (line tok t a b : List Char)
    (hm : matchLine line = some (tok, t, a, b)) :
    (∃ rl, parseLine line = .ok rl) ∨ parseLine line = .error .InvalidVersionNumber := by
  obtain ⟨_, hmem, _⟩ := matchLine_sound line tok t a b hm
  obtain ⟨m, hcode⟩ := method_code_of_mem tok hmem
  rw [parseLine_some_eq line tok t a b hm, hcode]
  simp only [except_ok_bind]
  by_cases hva : digitsVal a ≤ 4294967295
  · rw [stoul_ok a hva]
    simp only [except_ok_bind]
    by_cases hvb : digitsVal b ≤ 4294967295
    · rw [stoul_ok b hvb]
      simp only [except_ok_bind]
      exact Or.inl ⟨_, rfl⟩
    · rw [stoul_err b hvb]
      simp only [except_error_bind]
      exact Or.inr trivial
  · rw [stoul_err a hva]
    simp only [except_error_bind]
    exact Or.inr trivial

theorem parseFull_eq (req line : List Char) (off : Nat)
    (h15 : 15 ≤ req.length) (hs : splitLine req = .ok (line, off)) :
    parseFull req = (parseLine line).map (fun rl => (rl, off)) := by
  rw [parseFull, if_neg (by omega), hs]

theorem except_map_eq_error (e : Except Request_line_error Request_line)
    (f : Request_line → Request_line × Nat) (err : Request_line_error) :
    e.map f = .error err ↔ e = .error err := by
  cases e <;> simp [Except.map]

/-! ### Decimal rendering -/

theorem digitChar_spec (d : Nat) (h : d < 10) :
    digitVal (Nat.digitChar d) = d ∧ isDigitB (Nat.digitChar d) = true := by
  interval_cases d <;> exact ⟨rfl, rfl⟩

theorem digitsVal_append_one (xs : List Char) (c : Char) :
    digitsVal (xs ++ [c]) = 10 * digitsVal xs + digitVal c := by
  rw [digitsVal, List.foldl_append]
  rfl

theorem toDecimalAux_spec (fuel : Nat) : ∀ n : Nat, n < fuel →
    toDecimalAux fuel n ≠ [] ∧ allDigits (toDecimalAux fuel n) ∧
      digitsVal (toDecimalAux fuel n) = n := by
  induction fuel with
  | zero =>
    intro n hn
    exact absurd hn (Nat.not_lt_zero n)
  | succ fuel ih =>
    intro n hn
    by_cases h10 : n < 10
    · rw [toDecimalAux, if_pos h10]
      refine ⟨by simp, ?_, ?_⟩
      · intro c hc
        rw [List.mem_singleton] at hc
        rw [hc]
        exact (digitChar_spec n h10).2
      · rw [digitsVal]
        simp only [List.foldl_cons, List.foldl_nil]
        rw [(digitChar_spec n h10).1]
        omega
    · rw [toDecimalAux, if_neg h10]
      have hdiv : n / 10 < fuel := by
        have := Nat.div_lt_self (by omega : 0 < n) (by omega : 1 < 10)
        omega
      obtain ⟨hne, hdig, hval⟩ := ih (n / 10) hdiv
      refine ⟨by simp, ?_, ?_⟩
      · intro c hc
        rcases List.mem_append.mp hc with hc | hc
        · exact hdig c hc
        · rw [List.mem_singleton] at hc
          rw [hc]
          exact (digitChar_spec (n % 10) (Nat.mod_lt n (by omega))).2
      · rw [digitsVal_append_one, hval, (digitChar_spec (n % 10) (Nat.mod_lt n (by omega))).1]
        omega

theorem toDecimal_ne_nil (n : Nat) : toDecimal n ≠ [] :=
  (toDecimalAux_spec (n + 1) n (Nat.lt_succ_self n)).1

theorem toDecimal_digits (n : Nat) : allDigits (toDecimal n) :=
  (toDecimalAux_spec (n + 1) n (Nat.lt_succ_self n)).2.1

theorem digitsVal_toDecimal (n : Nat) : digitsVal (toDecimal n) = n :=
  (toDecimalAux_spec (n + 1) n (Nat.lt_succ_self n)).2.2

/-! ### The rendered line -/

theorem to_string_eq (rl : Request_line) :
    rl.to_string =
      lineAssemble (method.str rl.method_) rl.uri_
        (toDecimal rl.version_.major) (toDecimal rl.version_.minor) ++ ['\r', '\n'] := by
  rw [Request_line.to_string, Version.render, lineAssemble]
  simp [List.append_assoc]

theorem method_str_facts (m : Method) :
    method.str m ≠ [] ∧ (∀ c ∈ method.str m, isWS c = false) ∧ 3 ≤ (method.str m).length := by
  cases m <;> exact ⟨by decide, by decide, by decide⟩

theorem no_lf_in_assemble (mtok t a b : List Char) (x : Char)
    (hx1 : x ≠ ' ') (hx2 : x ≠ '.') (hxws : isWS x = true)
    (hm : ∀ c ∈ mtok, isWS c = false) (ht : noWS t)
    (ha : allDigits a) (hb : allDigits b) :
    x ∉ lineAssemble mtok t a b := by
  intro hmem
  rw [lineAssemble] at hmem
  simp only [List.mem_append, List.mem_cons] at hmem
  have hhttp : x ∉ httpLit := by
    intro hh
    fin_cases hh <;> exact absurd hxws (by decide)
  rcases hmem with hc | hc | hc | hc | hc | hc | hc
  · rw [hm x hc] at hxws
    exact Bool.noConfusion hxws
  · exact hx1 hc
  · rw [ht x hc] at hxws
    exact Bool.noConfusion hxws
  · exact hx1 hc
  · exact hhttp hc
  · rw [isWS_eq_false_of_digit x (ha x hc)] at hxws
    exact Bool.noConfusion hxws
  · rcases hc with hc | hc
    · exact hx2 hc
    · rw [isWS_eq_false_of_digit x (hb x hc)] at hxws
      exact Bool.noConfusion hxws

theorem assemble_length (mtok t a b : List Char) :
    (lineAssemble mtok t a b).length =
      mtok.length + t.length + a.length + b.length + 8 := by
  rw [lineAssemble]
  simp [List.length_append, httpLit]
  omega

theorem parseLine_assemble (m : Method) (t a b : List Char)
    (ht : t ≠ []) (htw : noWS t)
    (ha : a ≠ []) (had : allDigits a)
    (hb : b ≠ []) (hbd : allDigits b)
    (hamax : digitsVal a ≤ 4294967295) (hbmax : digitsVal b ≤ 4294967295) :
    parseLine (lineAssemble (method.str m) t a b) =
      .ok ⟨m, t, ⟨digitsVal a, digitsVal b⟩⟩ := by
  have hmatch : matchLine (lineAssemble (method.str m) t a b) = some (method.str m, t, a, b) := by
    have := matchLine_complete [] (method.str m) t a b (by intro c hc; exact absurd hc (by simp))
      (method_str_mem m) ht htw ha had hb hbd
    simpa using this
  rw [parseLine_some_eq _ _ _ _ _ hmatch, method_code_str]
  simp only [except_ok_bind]
  rw [stoul_ok a hamax]
  simp only [except_ok_bind]
  rw [stoul_ok b hbmax]
  simp only [except_ok_bind]

/-! ### Claims -/

/-- C1: for every input of length at least 15 in which a line terminator
is found (`splitLine` succeeds, `line` being the bytes strictly before
the terminator), the parse rejects with `GrammarMismatch` exactly when
`line` fails the declarative grammar (optional leading whitespace run,
method token, one space, non-empty non-whitespace target, one space,
`"HTTP/"`, digit run, `"."`, digit run, nothing after); when `line` is
grammatical the parse is accepted — it either succeeds or fails with
`InvalidVersionNumber` in the later numeric decoding stage — and never
reports `GrammarMismatch`. -/
theorem c1_grammar_acceptance (req line : List Char) (off : Nat)
    (h15 : 15 ≤ req.length) (hs : splitLine req = .ok (line, off)) :
    (parseFull req = .error .GrammarMismatch ↔ ¬ Grammatical line) ∧
    (Grammatical line →
      (∃ rl, parseFull req = .ok (rl, off)) ∨
        parseFull req = .error .InvalidVersionNumber) := by
  have hfull := parseFull_eq req line off h15 hs
  constructor
  · rw [hfull, except_map_eq_error, parseLine_eq_gm_iff, grammatical_iff]
    cases matchLine line <;> simp
  · intro hg
    obtain ⟨⟨tok, t, a, b⟩, hm⟩ := (grammatical_iff line).mp hg
    rcases parseLine_ok_or_overflow line tok t a b hm with ⟨rl, hok⟩ | herr
    · exact Or.inl ⟨rl, by rw [hfull, hok]; rfl⟩
    · exact Or.inr (by rw [hfull, herr]; rfl)

/-- C1 witness at `"GET / HTTP/1.1\r\n"`. -/
theorem c1_grammar_acceptance_witness :
    (parseFull ("GET / HTTP/1.1\r\n".toList) = .error .GrammarMismatch ↔
      ¬ Grammatical ("GET / HTTP/1.1".toList)) ∧
    (Grammatical ("GET / HTTP/1.1".toList) →
      (∃ rl, parseFull ("GET / HTTP/1.1\r\n".toList) = .ok (rl, 16)) ∨
        parseFull ("GET / HTTP/1.1\r\n".toList) = .error .InvalidVersionNumber) :=
  c1_grammar_acceptance ("GET / HTTP/1.1\r\n".toList) ("GET / HTTP/1.1".toList) 16
    (by decide) (by rfl)

/-- C2: the `"\r\n"` search runs first over the whole buffer, so the
extracted line is the prefix before the first `"\r\n"` (even when a bare
`'\n'` occurs earlier — the hypotheses place no restriction on earlier
`'\n'` bytes); only when no `"\r\n"` occurs anywhere is the first bare
`'\n'` used; and when neither occurs (no `'\n'` byte at all) the parse
fails with `MissingLineTerminator`.  The length hypothesis keeps the
earlier guard of claim C3 from firing first. -/
theorem c2_terminator_selection (req : List Char) (h15 : 15 ≤ req.length) :
    (∀ i, crlfAt req i → (∀ j, j < i → ¬ crlfAt req j) →
        splitLine req = .ok (req.take i, i + 2) ∧
        parseFull req = (parseLine (req.take i)).map (fun rl => (rl, i + 2))) ∧
    ((∀ i, ¬ crlfAt req i) →
      ∀ i, lfAt req i → (∀ j, j < i → ¬ lfAt req j) →
        splitLine req = .ok (req.take i, i + 1) ∧
        parseFull req = (parseLine (req.take i)).map (fun rl => (rl, i + 1))) ∧
    ('\n' ∉ req → parseFull req = .error .MissingLineTerminator) := by
  refine ⟨?_, ?_, ?_⟩
  · intro i hi hmin
    have hsl : splitLine req = .ok (req.take i, i + 2) := by
      rw [splitLine, findCrlf_eq_some req i hi hmin]
    exact ⟨hsl, parseFull_eq req (req.take i) (i + 2) h15 hsl⟩
  · intro hnone i hi hmin
    have hcr : findCrlf req = none := by
      apply findFirst_eq_none
      intro j
      apply Bool.eq_false_iff.mpr
      intro hb
      exact hnone j ((startsWithCrlf_iff _).mp hb)
    have hsl : splitLine req = .ok (req.take i, i + 1) := by
      rw [splitLine, hcr, findLf_eq_some req i hi hmin]
    exact ⟨hsl, parseFull_eq req (req.take i) (i + 1) h15 hsl⟩
  · intro hno
    rw [parseFull, if_neg (by omega), splitLine,
      findCrlf_eq_none_of_no_lf req hno, findLf_eq_none_of_no_lf req hno]

/-- C2 witness at `"POST /a\nB HTTP/1.1\r\n"`, whose bare `'\n'` at
offset 7 precedes the `"\r\n"` at offset 18: the line is still the
prefix before the `"\r\n"`. -/
theorem c2_terminator_selection_witness :
    splitLine ("POST /a\nB HTTP/1.1\r\n".toList) =
      .ok (("POST /a\nB HTTP/1.1\r\n".toList).take 18, 18 + 2) ∧
    parseFull ("POST /a\nB HTTP/1.1\r\n".toList) =
      (parseLine (("POST /a\nB HTTP/1.1\r\n".toList).take 18)).map (fun rl => (rl, 18 + 2)) :=
  (c2_terminator_selection ("POST /a\nB HTTP/1.1\r\n".toList) (by decide)).1 18
    (by decide) (by decide)

/-- C3: every input shorter than 15 bytes fails with `InputTooShort`;
the guard runs before any terminator search or grammar match, so even a
well-shaped short input such as `"GET /\r\n"` fails this way. -/
theorem c3_min_length_guard (req : List Char) (h : req.length < 15) :
    parseFull req = .error .InputTooShort ∧
    Request_line.parse req = .error .InputTooShort := by
  have h1 : parseFull req = .error .InputTooShort := by
    rw [parseFull, if_pos h]
  refine ⟨h1, ?_⟩
  rw [Request_line.parse, h1]
  rfl

/-- C3 witness at the 7-byte, grammatically plausible `"GET /\r\n"`. -/
theorem c3_min_length_guard_witness :
    parseFull ("GET /\r\n".toList) = .error .InputTooShort ∧
    Request_line.parse ("GET /\r\n".toList) = .error .InputTooShort :=
  c3_min_length_guard ("GET /\r\n".toList) (by decide)

/-- C4 (code bug): on the spec's own example the constructor internally
computes resume offset 16 — the index just past the `"\r\n"`, which
addresses exactly `"Host: x\r\n\r\n"` — but the caller-visible result
(`Request_line.parse`, the value the constructor produces) carries no
offset: the trimmed view is assigned to the by-value `string_view`
parameter at lines 214-219 and lost when the constructor returns. -/
theorem c4_resume_offset_discarded :
    parseFull ("GET / HTTP/1.1\r\nHost: x\r\n\r\n".toList) =
      .ok (⟨.GET, ['/'], ⟨1, 1⟩⟩, 16) ∧
    ("GET / HTTP/1.1\r\nHost: x\r\n\r\n".toList).drop 16 = "Host: x\r\n\r\n".toList ∧
    Request_line.parse ("GET / HTTP/1.1\r\nHost: x\r\n\r\n".toList) =
      .ok ⟨.GET, ['/'], ⟨1, 1⟩⟩ :=
  ⟨rfl, rfl, rfl⟩

/-- C5 counterexample: `"FOO / HTTP/1.1\r\n"` is positionally shaped
like a request line with the unknown method token `"FOO"`, and the parse
fails with `GrammarMismatch`, not `UnknownMethod` — the eight tokens are
baked into the regex alternation, so the method sub-decoder (the only
source of `UnknownMethod`) is never reached on an unknown token. -/
theorem c5_unknown_method_counterexample :
    Request_line.parse ("FOO / HTTP/1.1\r\n".toList) = .error .GrammarMismatch ∧
    Request_line_error.GrammarMismatch ≠ Request_line_error.UnknownMethod :=
  ⟨rfl, by decide⟩

/-- C5 amended: for every input whose line has the positional shape of a
request line but whose method token is not byte-for-byte one of the
eight uppercase tokens, the parse fails with `GrammarMismatch` (and
never silently normalizes the case or substitutes a method). -/
theorem c5_unknown_method_amended (req line : List Char) (off : Nat)
    (ws tok t a b : List Char)
    (h15 : 15 ≤ req.length) (hs : splitLine req = .ok (line, off))
    (hline : line = ws ++ lineAssemble tok t a b)
    (hws : allWS ws) (htokne : tok ≠ []) (htoknws : noWS tok)
    (hunk : tok ∉ methodTokens)
    (_ht : t ≠ []) (_htw : noWS t) (_ha : a ≠ []) (_had : allDigits a)
    (_hb : b ≠ []) (_hbd : allDigits b) :
    parseFull req = .error .GrammarMismatch := by
  have hng : ¬ Grammatical line := by
    rintro ⟨ws', mtok, t', a', b', heq, hws', hm', ht', htw', ha', had', hb', hbd'⟩
    obtain ⟨k, kt, rfl⟩ : ∃ x xs, tok = x :: xs := by
      cases tok with
      | nil => exact absurd rfl htokne
      | cons x xs => exact ⟨x, xs, rfl⟩
    obtain ⟨hmne', hmnws'⟩ := methodTokens_facts mtok hm'
    obtain ⟨mh, mt, rfl⟩ : ∃ x xs, mtok = x :: xs := by
      cases mtok with
      | nil => exact absurd rfl hmne'
      | cons x xs => exact ⟨x, xs, rfl⟩
    have h1 : line.takeWhile isWS = ws := by
      rw [hline, lineAssemble, List.cons_append]
      exact takeWhile_append_of isWS ws k _ hws (htoknws k (List.mem_cons_self _ _))
    have h2 : line.takeWhile isWS = ws' := by
      rw [heq, lineAssemble, List.cons_append]
      exact takeWhile_append_of isWS ws' mh _ hws' (hmnws' mh (List.mem_cons_self _ _))
    have h3 : ws = ws' := by
      rw [← h1, h2]
    have h4 : lineAssemble (k :: kt) t a b = lineAssemble (mh :: mt) t' a' b' := by
      have hcomb : ws ++ lineAssemble (k :: kt) t a b =
          ws ++ lineAssemble (mh :: mt) t' a' b' := by
        rw [← hline, heq, ← h3]
      exact List.append_cancel_left hcomb
    rw [lineAssemble, lineAssemble] at h4
    have h5 := token_eq_of (k :: kt) (mh :: mt) _ _
      (noWS_not_space (k :: kt) htoknws)
      (methodTokens_not_space (mh :: mt) hm') h4
    rw [h5.1] at hunk
    exact hunk hm'
  have hfull := parseFull_eq req line off h15 hs
  rw [hfull, except_map_eq_error, parseLine_eq_gm_iff]
  cases hm : matchLine line with
  | none => rfl
  | some out => exact absurd ((grammatical_iff line).mpr ⟨out, hm⟩) hng

/-- C5 witness: the amended claim applied at `"FOO / HTTP/1.1\r\n"`. -/
theorem c5_unknown_method_amended_witness :
    parseFull ("FOO / HTTP/1.1\r\n".toList) = .error .GrammarMismatch :=
  c5_unknown_method_amended ("FOO / HTTP/1.1\r\n".toList) ("FOO / HTTP/1.1".toList) 16
    [] ("FOO".toList) (['/']) (['1']) (['1'])
    (by decide) (by rfl) (by decide) (by decide) (by decide) (by decide)
    (by decide) (by decide) (by decide) (by decide) (by decide) (by decide) (by decide)

/-- C6: whenever the grammar stage has matched and the major or minor
digit run denotes a value outside the 32-bit unsigned range, the parse
fails with `InvalidVersionNumber` — it never wraps or truncates the
value. -/
theorem c6_version_overflow (req line : List Char) (off : Nat)
    (tok t a b : List Char)
    (h15 : 15 ≤ req.length) (hs : splitLine req = .ok (line, off))
    (hm : matchLine line = some (tok, t, a, b))
    (hov : 2 ^ 32 ≤ digitsVal a ∨ 2 ^ 32 ≤ digitsVal b) :
    parseFull req = .error .InvalidVersionNumber := by
  have h32 : (2 : Nat) ^ 32 = 4294967296 := by norm_num
  obtain ⟨_, hmem, _⟩ := matchLine_sound line tok t a b hm
  obtain ⟨m, hcode⟩ := method_code_of_mem tok hmem
  rw [parseFull_eq req line off h15 hs, except_map_eq_error]
  rw [parseLine_some_eq line tok t a b hm, hcode]
  simp only [except_ok_bind]
  by_cases hva : digitsVal a ≤ 4294967295
  · have hovb : ¬ digitsVal b ≤ 4294967295 := by
      rcases hov with h | h <;> omega
    rw [stoul_ok a hva]
    simp only [except_ok_bind]
    rw [stoul_err b hovb]
    simp only [except_error_bind]
  · rw [stoul_err a hva]
    simp only [except_error_bind]

/-- C6 witness at `"GET / HTTP/4294967296.1\r\n"`, whose major run
denotes `2 ^ 32`. -/
theorem c6_version_overflow_witness :
    parseFull ("GET / HTTP/4294967296.1\r\n".toList) = .error .InvalidVersionNumber :=
  c6_version_overflow ("GET / HTTP/4294967296.1\r\n".toList)
    ("GET / HTTP/4294967296.1".toList) 25
    ("GET".toList) (['/']) ("4294967296".toList) (['1'])
    (by decide) (by rfl) (by rfl)
    (Or.inl (by decide))

/-- Shared helper: parsing an assembled canonical line terminated by
`"\r\n"` succeeds with the decoded fields. -/
theorem parse_assembled_crlf (m : Method) (t a b : List Char)
    (ht : t ≠ []) (htw : noWS t)
    (hane : a ≠ []) (had : allDigits a) (hbne : b ≠ []) (hbd : allDigits b)
    (hamax : digitsVal a ≤ 4294967295) (hbmax : digitsVal b ≤ 4294967295) :
    Request_line.parse (lineAssemble (method.str m) t a b ++ ['\r', '\n']) =
      .ok ⟨m, t, ⟨digitsVal a, digitsVal b⟩⟩ := by
  obtain ⟨hmne, hmnws, hmlen⟩ := method_str_facts m
  have hln : '\n' ∉ lineAssemble (method.str m) t a b :=
    no_lf_in_assemble (method.str m) t a b '\n' (by decide) (by decide) (by decide)
      hmnws htw had hbd
  have hsl := splitLine_crlf (lineAssemble (method.str m) t a b) [] hln
  have hlen : 15 ≤ (lineAssemble (method.str m) t a b ++ ['\r', '\n']).length := by
    rw [List.length_append, assemble_length]
    have h1 : 1 ≤ t.length := List.length_pos.mpr ht
    have h2 : 1 ≤ a.length := List.length_pos.mpr hane
    have h3 : 1 ≤ b.length := List.length_pos.mpr hbne
    simp only [List.length_cons, List.length_nil]
    omega
  have hfull := parseFull_eq _ _ _ hlen hsl
  rw [Request_line.parse, hfull,
    parseLine_assemble m t a b ht htw hane had hbne hbd hamax hbmax]
  rfl

/-- Shared helper: parsing an assembled canonical line terminated by a
bare `'\n'` succeeds with the same decoded fields. -/
theorem parse_assembled_lf (m : Method) (t a b : List Char)
    (ht : t ≠ []) (htw : noWS t)
    (hane : a ≠ []) (had : allDigits a) (hbne : b ≠ []) (hbd : allDigits b)
    (hamax : digitsVal a ≤ 4294967295) (hbmax : digitsVal b ≤ 4294967295) :
    Request_line.parse (lineAssemble (method.str m) t a b ++ ['\n']) =
      .ok ⟨m, t, ⟨digitsVal a, digitsVal b⟩⟩ := by
  obtain ⟨hmne, hmnws, hmlen⟩ := method_str_facts m
  have hln : '\n' ∉ lineAssemble (method.str m) t a b :=
    no_lf_in_assemble (method.str m) t a b '\n' (by decide) (by decide) (by decide)
      hmnws htw had hbd
  have hrn : '\r' ∉ lineAssemble (method.str m) t a b :=
    no_lf_in_assemble (method.str m) t a b '\r' (by decide) (by decide) (by decide)
      hmnws htw had hbd
  have hsl := splitLine_lf (lineAssemble (method.str m) t a b) hrn hln
  have hlen : 15 ≤ (lineAssemble (method.str m) t a b ++ ['\n']).length := by
    rw [List.length_append, assemble_length]
    have h1 : 1 ≤ t.length := List.length_pos.mpr ht
    have h2 : 1 ≤ a.length := List.length_pos.mpr hane
    have h3 : 1 ≤ b.length := List.length_pos.mpr hbne
    simp only [List.length_cons, List.length_nil]
    omega
  have hfull := parseFull_eq _ _ _ hlen hsl
  rw [Request_line.parse, hfull,
    parseLine_assemble m t a b ht htw hane had hbne hbd hamax hbmax]
  rfl

/-- C7: rendering deterministically produces the flat byte sequence
`"<METHOD> <target> HTTP/<major>.<minor>\r\n"`; in particular every
rendered line ends in `"\r\n"` whatever the value's provenance, and the
default value `{GET, "/", 1.1}` renders to exactly
`"GET / HTTP/1.1\r\n"`. -/
theorem c7_render_shape :
    (∀ rl : Request_line, rl.to_string =
      method.str rl.method_ ++ (' ' :: (rl.uri_ ++ (' ' :: (httpLit ++
        (toDecimal rl.version_.major ++ ('.' :: (toDecimal rl.version_.minor ++
          ['\r', '\n'])))))))) ∧
    (∀ rl : Request_line, ∃ pre, rl.to_string = pre ++ ['\r', '\n']) ∧
    Request_line.to_string ⟨.GET, ['/'], ⟨1, 1⟩⟩ = "GET / HTTP/1.1\r\n".toList := by
  refine ⟨?_, ?_, ?_⟩
  · intro rl
    rw [to_string_eq rl, lineAssemble]
    simp [List.append_assoc]
  · intro rl
    exact ⟨_, to_string_eq rl⟩
  · rfl

/-- C8 counterexample: `"GET / HTTP/1.1\r\nX"` parses successfully with
the `"\r\n"` terminator (the parser deliberately accepts trailing bytes
after the terminator — the input may hold more of the message), yet
rendering the parsed value yields only the canonical first line, so
`render(parse(x)) ≠ x`. -/
theorem c8_roundtrip_counterexample :
    Request_line.parse ("GET / HTTP/1.1\r\nX".toList) = .ok ⟨.GET, ['/'], ⟨1, 1⟩⟩ ∧
    Request_line.to_string ⟨.GET, ['/'], ⟨1, 1⟩⟩ ≠ "GET / HTTP/1.1\r\nX".toList :=
  ⟨rfl, by decide⟩

/-- C8 amended: for every input that is exactly one request line — no
leading whitespace, nothing after the terminator, canonical (no leading
zero) digit runs within the 32-bit range — parsing succeeds and
rendering the parsed value reproduces the input byte-for-byte when the
terminator was `"\r\n"`; with a bare `'\n'` terminator the parsed value
is the same and the rendering differs from the input only in the
terminator (LF replaced by CRLF). -/
theorem c8_roundtrip_canonical (m : Method) (t a b : List Char)
    (ht : t ≠ []) (htw : noWS t)
    (hca : toDecimal (digitsVal a) = a) (hcb : toDecimal (digitsVal b) = b)
    (hamax : digitsVal a ≤ 4294967295) (hbmax : digitsVal b ≤ 4294967295) :
    (Request_line.parse (lineAssemble (method.str m) t a b ++ ['\r', '\n']) =
        .ok ⟨m, t, ⟨digitsVal a, digitsVal b⟩⟩ ∧
      Request_line.to_string ⟨m, t, ⟨digitsVal a, digitsVal b⟩⟩ =
        lineAssemble (method.str m) t a b ++ ['\r', '\n']) ∧
    (Request_line.parse (lineAssemble (method.str m) t a b ++ ['\n']) =
        .ok ⟨m, t, ⟨digitsVal a, digitsVal b⟩⟩ ∧
      Request_line.to_string ⟨m, t, ⟨digitsVal a, digitsVal b⟩⟩ =
        lineAssemble (method.str m) t a b ++ ['\r', '\n']) := by
  have hane : a ≠ [] := by
    rw [← hca]
    exact toDecimal_ne_nil _
  have had : allDigits a := by
    rw [← hca]
    exact toDecimal_digits _
  have hbne : b ≠ [] := by
    rw [← hcb]
    exact toDecimal_ne_nil _
  have hbd : allDigits b := by
    rw [← hcb]
    exact toDecimal_digits _
  have hrender : Request_line.to_string ⟨m, t, ⟨digitsVal a, digitsVal b⟩⟩ =
      lineAssemble (method.str m) t a b ++ ['\r', '\n'] := by
    rw [to_string_eq]
    simp only
    rw [hca, hcb]
  exact ⟨⟨parse_assembled_crlf m t a b ht htw hane had hbne hbd hamax hbmax, hrender⟩,
    ⟨parse_assembled_lf m t a b ht htw hane had hbne hbd hamax hbmax, hrender⟩⟩

/-- C8 witness at `"GET / HTTP/1.1\r\n"` and `"GET / HTTP/1.1\n"`. -/
theorem c8_roundtrip_canonical_witness :
    (Request_line.parse (lineAssemble (method.str .GET) ['/'] ['1'] ['1'] ++ ['\r', '\n']) =
        .ok ⟨.GET, ['/'], ⟨digitsVal ['1'], digitsVal ['1']⟩⟩ ∧
      Request_line.to_string ⟨.GET, ['/'], ⟨digitsVal ['1'], digitsVal ['1']⟩⟩ =
        lineAssemble (method.str .GET) ['/'] ['1'] ['1'] ++ ['\r', '\n']) ∧
    (Request_line.parse (lineAssemble (method.str .GET) ['/'] ['1'] ['1'] ++ ['\n']) =
        .ok ⟨.GET, ['/'], ⟨digitsVal ['1'], digitsVal ['1']⟩⟩ ∧
      Request_line.to_string ⟨.GET, ['/'], ⟨digitsVal ['1'], digitsVal ['1']⟩⟩ =
        lineAssemble (method.str .GET) ['/'] ['1'] ['1'] ++ ['\r', '\n']) :=
  c8_roundtrip_canonical .GET ['/'] ['1'] ['1']
    (by decide) (by decide) (by rfl) (by rfl) (by decide) (by decide)

/-- C9: parsing the bytes produced by rendering any `Request_line`
value — target non-empty and whitespace-free per the Target invariant,
version components within the 32-bit unsigned range of the C++
fields — succeeds and reproduces the very same structured value. -/
theorem c9_render_parse_roundtrip (rl : Request_line)
    (ht : rl.uri_ ≠ []) (htw : noWS rl.uri_)
    (hmaj : rl.version_.major < 2 ^ 32) (hmin : rl.version_.minor < 2 ^ 32) :
    Request_line.parse rl.to_string = .ok rl := by
  have h32 : (2 : Nat) ^ 32 = 4294967296 := by norm_num
  obtain ⟨m, t, maj, mn⟩ := rl
  simp only at ht htw hmaj hmin
  rw [to_string_eq]
  simp only
  have := parse_assembled_crlf m t (toDecimal maj) (toDecimal mn) ht htw
    (toDecimal_ne_nil maj) (toDecimal_digits maj)
    (toDecimal_ne_nil mn) (toDecimal_digits mn)
    (by rw [digitsVal_toDecimal]; omega) (by rw [digitsVal_toDecimal]; omega)
  rw [digitsVal_toDecimal, digitsVal_toDecimal] at this
  exact this

/-- C9 witness at the default value `{GET, "/", 1.1}`. -/
theorem c9_render_parse_roundtrip_witness :
    Request_line.parse (Request_line.to_string ⟨.GET, ['/'], ⟨1, 1⟩⟩) =
      .ok ⟨.GET, ['/'], ⟨1, 1⟩⟩ :=
  c9_render_parse_roundtrip ⟨.GET, ['/'], ⟨1, 1⟩⟩
    (by decide) (by decide) (by norm_num) (by norm_num)

/-- C10: each setter updates exactly its own field — `set_method`
leaves target and version untouched, `set_uri` leaves method and
version untouched, `set_version` leaves method and target untouched —
and the accessors `method`, `uri` and `version` return the field value
with the object state unchanged. -/
theorem c10_setters_frame :
    ∀ (rl : Request_line) (m : Method) (u : List Char) (v : Version),
      ((rl.set_method m).method_ = m ∧ (rl.set_method m).uri_ = rl.uri_ ∧
        (rl.set_method m).version_ = rl.version_) ∧
      ((rl.set_uri u).uri_ = u ∧ (rl.set_uri u).method_ = rl.method_ ∧
        (rl.set_uri u).version_ = rl.version_) ∧
      ((rl.set_version v).version_ = v ∧ (rl.set_version v).method_ = rl.method_ ∧
        (rl.set_version v).uri_ = rl.uri_) ∧
      (rl.method.2 = rl ∧ rl.uri.2 = rl ∧ rl.version.2 = rl ∧
        rl.method.1 = rl.method_ ∧ rl.uri.1 = rl.uri_ ∧ rl.version.1 = rl.version_) :=
  fun _ _ _ _ =>
    ⟨⟨rfl, rfl, rfl⟩, ⟨rfl, rfl, rfl⟩, ⟨rfl, rfl, rfl⟩, rfl, rfl, rfl, rfl, rfl, rfl⟩
